import Mathlib

set_option maxRecDepth 8192

/-!
Verification of the resource-rewriting script `fix_resources.py`.

The script performs two regex substitutions over the file content held in
memory as one string, then writes the result back unconditionally:

1. Anchor insertion: `re.sub` with the literal pattern
   `(            _updateCheckTimer\.Start\(\);\n        \})` and replacement
   `\1` followed by the text of `helper_method`.  Since the pattern is a
   literal, this replaces every non-overlapping occurrence of the anchor
   text by itself followed by the helper block.
2. Resource rewriting: `re.sub` with the pattern
   `\(SolidColorBrush\)Application\.Current\.Resources\["[^"]+"\]` and the
   replacement function `replace_resource`, which re-searches the matched
   text for `\["([^"]+)"\]`, extracts the capture as the key and renders
   `GetThemeBrush("key", Brushes.Gray)`, or returns the match unchanged if
   the inner search fails.

Strings are modelled as `List Char`.  The scanners mirror the left-to-right
non-overlapping scan of `re.sub`: at each position a match attempt is made;
on success the rendered replacement is emitted and scanning resumes after
the matched span, on failure the character is copied and scanning advances
by one.  Because the character classes in the patterns are all of the form
"any character except a double quote" followed by a mandatory quote,
backtracking can never produce a match that the greedy first attempt
misses, so the scan below computes exactly what the Python regex engine
computes.  The scanners take an explicit fuel argument (instantiated with
the length of the input) so that every definition is structurally
recursive and kernel-evaluable.
-/

/-- Chars of the anchor literal of the first `re.sub` pattern: twelve
spaces, the timer-start statement, a newline, eight spaces, closing brace. -/
def anchorPat : List Char :=
  "            _updateCheckTimer.Start();\n        \x7d".toList

/-- Chars of the `helper_method` template that the script splices in after
the anchor. -/
def helper_method : List Char :=
  ("\n        private SolidColorBrush GetThemeBrush(string resourceKey, Brush fallback)\n        \x7b\n            var brush = Application.Current?.Resources[resourceKey] as SolidColorBrush;\n            return brush ?? (fallback as SolidColorBrush) ?? Brushes.Gray;\n        \x7d\n\n").toList

/-- Chars of the literal part of the resource pattern up to and including
the opening bracket and quote of the key. -/
def resPat : List Char :=
  "(SolidColorBrush)Application.Current.Resources[\"".toList

/-- Chars of the resource pattern before the bracket, used to reason about
the inner key search of `replace_resource`. -/
def resHead : List Char :=
  "(SolidColorBrush)Application.Current.Resources".toList

/-- Rendered output of the f-string in `replace_resource` for a key. -/
def renderRes (key : List Char) : List Char :=
  "GetThemeBrush(\"".toList ++ key ++ "\", Brushes.Gray)".toList

/-- Match attempt of the inner pattern of `replace_resource`, the regex
written in the source as a bracket, a quoted nonempty run of non-quote
characters, and a closing bracket, at the head of the list.  Returns the
captured key on success. -/
def innerMatchAt (l : List Char) : Option (List Char) :=
  match l with
  | c1 :: c2 :: rest =>
    if c1 = '[' ∧ c2 = '"' then
      match rest.dropWhile (fun c => c != '"') with
      | c3 :: c4 :: _ =>
        if c3 = '"' ∧ c4 = ']' ∧ rest.takeWhile (fun c => c != '"') ≠ [] then
          some (rest.takeWhile (fun c => c != '"'))
        else none
      | _ => none
    else none
  | _ => none

/-- The `re.search` of `replace_resource`: the leftmost match of the inner
pattern, scanning positions left to right. -/
def innerKeySearch : List Char → Option (List Char)
  | [] => none
  | c :: cs =>
    match innerMatchAt (c :: cs) with
    | some key => some key
    | none => innerKeySearch cs

/-- The replacement function `replace_resource` of the source: search the
matched text for the quoted bracket key; on success render the
GetThemeBrush call, otherwise return the match unchanged. -/
def replace_resource (full_match : List Char) : List Char :=
  match innerKeySearch full_match with
  | some key => renderRes key
  | none => full_match

/-- Match attempt of the outer resource pattern at the head of the list:
the literal prefix, then a nonempty run of non-quote characters as the
key, then a quote and a closing bracket.  Returns the key and the suffix
after the matched span. -/
def matchRes (l : List Char) : Option (List Char × List Char) :=
  if resPat.isPrefixOf l then
    let l1 := l.drop resPat.length
    match l1.dropWhile (fun c => c != '"') with
    | c3 :: c4 :: rest =>
      if c3 = '"' ∧ c4 = ']' ∧ l1.takeWhile (fun c => c != '"') ≠ [] then
        some (l1.takeWhile (fun c => c != '"'), rest)
      else none
    | _ => none
  else none

/-- One step of the anchor substitution: if the anchor literal occurs at
the head, the span is replaced by itself followed by the helper block. -/
def anchorStep (l : List Char) : Option (List Char × List Char) :=
  if anchorPat.isPrefixOf l then
    some (anchorPat ++ helper_method, l.drop anchorPat.length)
  else none

/-- One step of the resource substitution: on a match of the outer
pattern, the span is handed to `replace_resource` exactly as `re.sub`
hands the match object to the replacement function. -/
def resStep (l : List Char) : Option (List Char × List Char) :=
  match matchRes l with
  | some (key, rest) =>
    some (replace_resource (resPat ++ key ++ ['"', ']']), rest)
  | none => none

/-- Generic left-to-right non-overlapping substitution scan, as performed
by `re.sub`: at each position try a match step; on success emit the
replacement and resume after the span, on failure copy one character.
The fuel argument dominates the length of the input. -/
def scanSub (step : List Char → Option (List Char × List Char)) :
    Nat → List Char → List Char
  | 0, s => s
  | _ + 1, [] => []
  | n + 1, c :: cs =>
    match step (c :: cs) with
    | some (rep, rest) => rep ++ scanSub step n rest
    | none => c :: scanSub step n cs

/-- Number of matches found by the same scan. -/
def scanCount (step : List Char → Option (List Char × List Char)) :
    Nat → List Char → Nat
  | 0, _ => 0
  | _ + 1, [] => 0
  | n + 1, c :: cs =>
    match step (c :: cs) with
    | some (_, rest) => 1 + scanCount step n rest
    | none => scanCount step n cs

/-- First substitution of the script: insert the helper block after every
occurrence of the anchor literal. -/
def anchorSub (s : List Char) : List Char := scanSub anchorStep s.length s

/-- Number of anchor matches in the text. -/
def anchorCount (s : List Char) : Nat := scanCount anchorStep s.length s

/-- Second substitution of the script: rewrite every occurrence of the
resource-lookup pattern through `replace_resource`. -/
def resourceSub (s : List Char) : List Char := scanSub resStep s.length s

/-- Number of resource-pattern matches in the text. -/
def resCount (s : List Char) : Nat := scanCount resStep s.length s

/-- The in-memory transform of the script: anchor insertion followed by
resource rewriting, on the content read from the file. -/
def pipeline (content : List Char) : List Char :=
  resourceSub (anchorSub content)

/-- What the script writes back to the file, if anything.  The source has
no error path: it always reaches the final write with the transformed
content, so this is `some` of the pipeline output for every input. -/
def writtenContent (content : List Char) : Option (List Char) :=
  some (pipeline content)

/-! ### Basic list helpers -/

theorem take_app_left (l z : List Char) (k : Nat) (h : k ≤ l.length) :
    (l ++ z).take k = l.take k := by
  induction l generalizing k with
  | nil =>
    have : k = 0 := Nat.le_zero.mp h
    simp [this]
  | cons a l ih =>
    cases k with
    | zero => simp
    | succ k =>
      simp only [List.cons_append, List.take_succ_cons]
      rw [ih k (by simpa using h)]

theorem drop_app_left (l z : List Char) (k : Nat) (h : k ≤ l.length) :
    (l ++ z).drop k = l.drop k ++ z := by
  induction l generalizing k with
  | nil =>
    have : k = 0 := Nat.le_zero.mp h
    simp [this]
  | cons a l ih =>
    cases k with
    | zero => simp
    | succ k =>
      simp only [List.cons_append, List.drop_succ_cons]
      exact ih k (by simpa using h)

theorem isPrefixOf_ex (a : List Char) :
    ∀ l : List Char, a.isPrefixOf l = true ↔ ∃ t, l = a ++ t := by
  induction a with
  | nil =>
    intro l
    simp [List.isPrefixOf]
  | cons x xs ih =>
    intro l
    cases l with
    | nil =>
      simp [List.isPrefixOf]
    | cons y ys =>
      simp only [List.isPrefixOf, Bool.and_eq_true, beq_iff_eq, ih ys,
        List.cons_append, List.cons.injEq]
      constructor
      · rintro ⟨rfl, t, rfl⟩
        exact ⟨t, rfl, rfl⟩
      · rintro ⟨t, rfl, rfl⟩
        exact ⟨rfl, t, rfl⟩

theorem isPrefixOf_take (a l : List Char) :
    a.isPrefixOf l = true ↔ l.take a.length = a := by
  rw [isPrefixOf_ex]
  constructor
  · rintro ⟨t, rfl⟩
    exact List.take_left a t
  · intro h
    refine ⟨l.drop a.length, ?_⟩
    conv_lhs => rw [← List.take_append_drop a.length l]
    rw [h]

theorem not_prefixOf_append (a b post : List Char)
    (h1 : b.isPrefixOf a = false) (h2 : a.isPrefixOf b = false) :
    a.isPrefixOf (b ++ post) = false := by
  by_contra hc
  have hp : a.isPrefixOf (b ++ post) = true := by
    cases hh : a.isPrefixOf (b ++ post) with
    | true => rfl
    | false => exact absurd hh hc
  rw [isPrefixOf_take] at hp
  by_cases hle : a.length ≤ b.length
  · have : b.take a.length = a := by
      rw [← take_app_left b post a.length hle]
      exact hp
    have : a.isPrefixOf b = true := (isPrefixOf_take a b).mpr this
    rw [h2] at this
    exact Bool.false_ne_true this
  · have hlt : b.length < a.length := Nat.lt_of_not_le hle
    have hb : a.take b.length = b := by
      have h3 := congrArg (List.take b.length) hp
      rw [List.take_take, Nat.min_eq_left (Nat.le_of_lt hlt),
        take_app_left b post b.length (Nat.le_refl _), List.take_length] at h3
      exact h3.symm
    have : b.isPrefixOf a = true := (isPrefixOf_take b a).mpr hb
    rw [h1] at this
    exact Bool.false_ne_true this

/-! ### Generic scan lemmas -/

/-- A step function shrinks its input: the suffix it returns is strictly
shorter than the list it matched on. -/
def Shrinking (step : List Char → Option (List Char × List Char)) : Prop :=
  ∀ l rep rest, step l = some (rep, rest) → rest.length < l.length

theorem scanSub_nil (step : List Char → Option (List Char × List Char)) :
    ∀ n, scanSub step n [] = [] := by
  intro n
  cases n <;> rfl

theorem scanCount_nil (step : List Char → Option (List Char × List Char)) :
    ∀ n, scanCount step n [] = 0 := by
  intro n
  cases n <;> rfl

theorem scanSub_cons_some {step : List Char → Option (List Char × List Char)}
    {c : Char} {cs rep rest : List Char} (n : Nat)
    (h : step (c :: cs) = some (rep, rest)) :
    scanSub step (n + 1) (c :: cs) = rep ++ scanSub step n rest := by
  simp [scanSub, h]

theorem scanSub_cons_none {step : List Char → Option (List Char × List Char)}
    {c : Char} {cs : List Char} (n : Nat) (h : step (c :: cs) = none) :
    scanSub step (n + 1) (c :: cs) = c :: scanSub step n cs := by
  simp [scanSub, h]

theorem scanCount_cons_some {step : List Char → Option (List Char × List Char)}
    {c : Char} {cs rep rest : List Char} (n : Nat)
    (h : step (c :: cs) = some (rep, rest)) :
    scanCount step (n + 1) (c :: cs) = 1 + scanCount step n rest := by
  simp [scanCount, h]

theorem scanCount_cons_none {step : List Char → Option (List Char × List Char)}
    {c : Char} {cs : List Char} (n : Nat) (h : step (c :: cs) = none) :
    scanCount step (n + 1) (c :: cs) = scanCount step n cs := by
  simp [scanCount, h]

theorem scanSub_fuel {step : List Char → Option (List Char × List Char)}
    (hs : Shrinking step) :
    ∀ n m s, s.length ≤ n → s.length ≤ m → scanSub step n s = scanSub step m s := by
  intro n
  induction n with
  | zero =>
    intro m s hn _
    have : s = [] := List.length_eq_zero.mp (Nat.le_zero.mp hn)
    subst this
    rw [scanSub_nil, scanSub_nil]
  | succ n ih =>
    intro m s hn hm
    cases s with
    | nil => rw [scanSub_nil, scanSub_nil]
    | cons c cs =>
      cases m with
      | zero => exact absurd hm (by simp)
      | succ m =>
        cases h : step (c :: cs) with
        | some pr =>
          obtain ⟨rep, rest⟩ := pr
          rw [scanSub_cons_some n h, scanSub_cons_some m h]
          have hr : rest.length < cs.length + 1 := hs _ _ _ h
          exact congrArg (rep ++ ·)
            (ih m rest (by simp at hn; omega) (by simp at hm; omega))
        | none =>
          rw [scanSub_cons_none n h, scanSub_cons_none m h]
          exact congrArg (c :: ·)
            (ih m cs (by simp at hn; omega) (by simp at hm; omega))

theorem scanCount_fuel {step : List Char → Option (List Char × List Char)}
    (hs : Shrinking step) :
    ∀ n m s, s.length ≤ n → s.length ≤ m → scanCount step n s = scanCount step m s := by
  intro n
  induction n with
  | zero =>
    intro m s hn _
    have : s = [] := List.length_eq_zero.mp (Nat.le_zero.mp hn)
    subst this
    rw [scanCount_nil, scanCount_nil]
  | succ n ih =>
    intro m s hn hm
    cases s with
    | nil => rw [scanCount_nil, scanCount_nil]
    | cons c cs =>
      cases m with
      | zero => exact absurd hm (by simp)
      | succ m =>
        cases h : step (c :: cs) with
        | some pr =>
          obtain ⟨rep, rest⟩ := pr
          rw [scanCount_cons_some n h, scanCount_cons_some m h]
          have hr : rest.length < cs.length + 1 := hs _ _ _ h
          exact congrArg (1 + ·)
            (ih m rest (by simp at hn; omega) (by simp at hm; omega))
        | none =>
          rw [scanCount_cons_none n h, scanCount_cons_none m h]
          exact ih m cs (by simp at hn; omega) (by simp at hm; omega)

theorem scanSub_count_zero {step : List Char → Option (List Char × List Char)} :
    ∀ n s, s.length ≤ n → scanCount step n s = 0 → scanSub step n s = s := by
  intro n
  induction n with
  | zero =>
    intro s hn _
    have : s = [] := List.length_eq_zero.mp (Nat.le_zero.mp hn)
    subst this
    rfl
  | succ n ih =>
    intro s hn hz
    cases s with
    | nil => exact scanSub_nil step _
    | cons c cs =>
      cases h : step (c :: cs) with
      | some pr =>
        obtain ⟨rep, rest⟩ := pr
        rw [scanCount_cons_some n h] at hz
        omega
      | none =>
        rw [scanCount_cons_none n h] at hz
        rw [scanSub_cons_none n h, ih cs (by simp at hn; omega) hz]

theorem scanSub_append {step : List Char → Option (List Char × List Char)}
    (pre : List Char) :
    ∀ post n, (pre ++ post).length ≤ n →
      (∀ i, i < pre.length → step ((pre ++ post).drop i) = none) →
      scanSub step n (pre ++ post) = pre ++ scanSub step (n - pre.length) post := by
  induction pre with
  | nil =>
    intro post n _ _
    simp
  | cons c pre ih =>
    intro post n hn h
    have h0 : step (c :: (pre ++ post)) = none := by
      have := h 0 (by simp)
      simpa using this
    cases n with
    | zero => simp at hn
    | succ n =>
      rw [List.cons_append, scanSub_cons_none n h0]
      have hrec := ih post n (by simp at hn ⊢; omega)
        (fun i hi => by
          have := h (i + 1) (by simp; omega)
          simpa using this)
      rw [hrec]
      simp [List.cons_append]

theorem scanCount_append {step : List Char → Option (List Char × List Char)}
    (pre : List Char) :
    ∀ post n, (pre ++ post).length ≤ n →
      (∀ i, i < pre.length → step ((pre ++ post).drop i) = none) →
      scanCount step n (pre ++ post) = scanCount step (n - pre.length) post := by
  induction pre with
  | nil =>
    intro post n _ _
    simp
  | cons c pre ih =>
    intro post n hn h
    have h0 : step (c :: (pre ++ post)) = none := by
      have := h 0 (by simp)
      simpa using this
    cases n with
    | zero => simp at hn
    | succ n =>
      rw [List.cons_append, scanCount_cons_none n h0]
      have hrec := ih post n (by simp at hn ⊢; omega)
        (fun i hi => by
          have := h (i + 1) (by simp; omega)
          simpa using this)
      rw [hrec]
      congr 1
      simp

theorem scanSub_match {step : List Char → Option (List Char × List Char)}
    {l rep rest : List Char} (n : Nat) (hstep : step l = some (rep, rest))
    (hne : l ≠ []) (hn : l.length ≤ n + 1) :
    scanSub step (n + 1) l = rep ++ scanSub step n rest := by
  obtain ⟨c, cs, rfl⟩ := List.exists_cons_of_ne_nil hne
  exact scanSub_cons_some n hstep

theorem scanCount_match {step : List Char → Option (List Char × List Char)}
    {l rep rest : List Char} (n : Nat) (hstep : step l = some (rep, rest))
    (hne : l ≠ []) (hn : l.length ≤ n + 1) :
    scanCount step (n + 1) l = 1 + scanCount step n rest := by
  obtain ⟨c, cs, rfl⟩ := List.exists_cons_of_ne_nil hne
  exact scanCount_cons_some n hstep

/-! ### Step characterizations -/

theorem anchorStep_some {l : List Char} (h : anchorPat.isPrefixOf l = true) :
    anchorStep l = some (anchorPat ++ helper_method, l.drop anchorPat.length) := by
  simp [anchorStep, h]

theorem anchorStep_none_iff (l : List Char) :
    anchorStep l = none ↔ anchorPat.isPrefixOf l = false := by
  unfold anchorStep
  cases h : anchorPat.isPrefixOf l <;> simp [h]

theorem anchorStep_append (x : List Char) :
    anchorStep (anchorPat ++ x) = some (anchorPat ++ helper_method, x) := by
  have hp : anchorPat.isPrefixOf (anchorPat ++ x) = true :=
    (isPrefixOf_ex anchorPat (anchorPat ++ x)).mpr ⟨x, rfl⟩
  rw [anchorStep_some hp, List.drop_left]

theorem anchorPat_ne_nil : anchorPat ≠ [] := by decide

theorem helper_method_ne_nil : helper_method ≠ [] := by decide

theorem anchor_shrinking : Shrinking anchorStep := by
  intro l rep rest h
  cases hp : anchorPat.isPrefixOf l with
  | false =>
    rw [(anchorStep_none_iff l).mpr hp] at h
    exact absurd h (by simp)
  | true =>
    obtain ⟨t, rfl⟩ := (isPrefixOf_ex anchorPat l).mp hp
    rw [anchorStep_append] at h
    simp only [Option.some.injEq, Prod.mk.injEq] at h
    rw [← h.2]
    have hpos : 0 < anchorPat.length := by decide
    simp only [List.length_append]
    omega

/-- Helper for membership of takeWhile runs. -/
theorem not_quote_of_mem_takeWhile {l key : List Char}
    (hk : key = l.takeWhile (fun c => c != '"')) : '"' ∉ key := by
  intro hmem
  subst hk
  have := List.mem_takeWhile_imp hmem
  simp at this

theorem takeWhile_key (key x : List Char) (h : '"' ∉ key) :
    (key ++ '"' :: x).takeWhile (fun c => c != '"') = key := by
  induction key with
  | nil => simp
  | cons a key ih =>
    have ha : a ≠ '"' := fun hc => h (hc ▸ List.mem_cons_self a key)
    have hmem : '"' ∉ key := fun hc => h (List.mem_cons_of_mem a hc)
    simp only [List.cons_append]
    rw [List.takeWhile_cons_of_pos (by simp [ha]), ih hmem]

theorem dropWhile_key (key x : List Char) (h : '"' ∉ key) :
    (key ++ '"' :: x).dropWhile (fun c => c != '"') = '"' :: x := by
  induction key with
  | nil => simp
  | cons a key ih =>
    have ha : a ≠ '"' := fun hc => h (hc ▸ List.mem_cons_self a key)
    have hmem : '"' ∉ key := fun hc => h (List.mem_cons_of_mem a hc)
    simp only [List.cons_append]
    rw [List.dropWhile_cons_of_pos (by simp [ha])]
    exact ih hmem

theorem matchRes_none_of_not_prefixOf {l : List Char}
    (h : resPat.isPrefixOf l = false) : matchRes l = none := by
  unfold matchRes
  rw [h]
  simp

theorem resStep_none_of_not_prefixOf {l : List Char}
    (h : resPat.isPrefixOf l = false) : resStep l = none := by
  unfold resStep
  rw [matchRes_none_of_not_prefixOf h]

/-- Computation of the outer match on a text starting with the literal
prefix. -/
theorem matchRes_append (t : List Char) :
    matchRes (resPat ++ t) =
      match t.dropWhile (fun c => c != '"') with
      | c3 :: c4 :: rest =>
        if c3 = '"' ∧ c4 = ']' ∧ t.takeWhile (fun c => c != '"') ≠ [] then
          some (t.takeWhile (fun c => c != '"'), rest)
        else none
      | _ => none := by
  have hp : resPat.isPrefixOf (resPat ++ t) = true :=
    (isPrefixOf_ex resPat (resPat ++ t)).mpr ⟨t, rfl⟩
  unfold matchRes
  rw [hp]
  simp [List.drop_left]

/-- Characterization of a successful outer match: the input splits into
the literal prefix, a nonempty quote-free key, the closing quote and
bracket, and the remainder. -/
theorem matchRes_some {l key rest : List Char}
    (h : matchRes l = some (key, rest)) :
    l = resPat ++ key ++ '"' :: ']' :: rest ∧ key ≠ [] ∧ '"' ∉ key := by
  cases hp : resPat.isPrefixOf l with
  | false =>
    rw [matchRes_none_of_not_prefixOf hp] at h
    exact absurd h (by simp)
  | true =>
    obtain ⟨t, rfl⟩ := (isPrefixOf_ex resPat l).mp hp
    rw [matchRes_append] at h
    cases hd : t.dropWhile (fun c => c != '"') with
    | nil =>
      rw [hd] at h
      exact absurd h (by simp)
    | cons c3 t1 =>
      cases t1 with
      | nil =>
        rw [hd] at h
        exact absurd h (by simp)
      | cons c4 t2 =>
        rw [hd] at h
        have h' : (if c3 = '"' ∧ c4 = ']' ∧
            t.takeWhile (fun c => c != '"') ≠ [] then
            some (t.takeWhile (fun c => c != '"'), t2) else none) =
            some (key, rest) := h
        by_cases hcond : c3 = '"' ∧ c4 = ']' ∧
            t.takeWhile (fun c => c != '"') ≠ []
        · rw [if_pos hcond] at h'
          simp only [Option.some.injEq, Prod.mk.injEq] at h'
          obtain ⟨hkey, hrest⟩ := h'
          obtain ⟨hc3, hc4, hne⟩ := hcond
          subst hc3
          subst hc4
          have hsplit : t.takeWhile (fun c => c != '"') ++
              t.dropWhile (fun c => c != '"') = t :=
            List.takeWhile_append_dropWhile (fun c => c != '"') t
          have ht : t = key ++ '"' :: ']' :: rest := by
            conv_lhs => rw [← hsplit]
            rw [hd, hkey, hrest]
          refine ⟨?_, ?_, ?_⟩
          · rw [ht, List.append_assoc]
          · rw [← hkey]
            exact hne
          · exact not_quote_of_mem_takeWhile hkey.symm
        · rw [if_neg hcond] at h'
          exact absurd h' (by simp)

theorem res_shrinking : Shrinking resStep := by
  intro l rep rest h
  unfold resStep at h
  cases hm : matchRes l with
  | none =>
    rw [hm] at h
    exact absurd h (by simp)
  | some pr =>
    obtain ⟨key, r⟩ := pr
    rw [hm] at h
    simp only [Option.some.injEq, Prod.mk.injEq] at h
    obtain ⟨hl, hne, _⟩ := matchRes_some hm
    rw [← h.2, hl]
    simp only [List.length_append, List.length_cons]
    omega

/-! ### The inner key search on a matched span -/

theorem innerMatchAt_none_of_head {c : Char} (t : List Char) (h : c ≠ '[') :
    innerMatchAt (c :: t) = none := by
  cases t <;> simp [innerMatchAt, h]

theorem innerKeySearch_cons_none {c : Char} {cs : List Char}
    (h : innerMatchAt (c :: cs) = none) :
    innerKeySearch (c :: cs) = innerKeySearch cs := by
  simp [innerKeySearch, h]

theorem innerKeySearch_cons_some {c : Char} {cs key : List Char}
    (h : innerMatchAt (c :: cs) = some key) :
    innerKeySearch (c :: cs) = some key := by
  simp [innerKeySearch, h]

theorem innerKeySearch_skip (pre : List Char) (x : List Char)
    (h : '[' ∉ pre) : innerKeySearch (pre ++ x) = innerKeySearch x := by
  induction pre with
  | nil => simp
  | cons c pre ih =>
    have hc : c ≠ '[' := fun hc => h (hc ▸ List.mem_cons_self c pre)
    have hmem : '[' ∉ pre := fun hc => h (List.mem_cons_of_mem c hc)
    rw [List.cons_append,
      innerKeySearch_cons_none (innerMatchAt_none_of_head (pre ++ x) hc)]
    exact ih hmem

theorem resHead_no_bracket : '[' ∉ resHead := by decide

theorem resPat_decomp : resPat = resHead ++ ['[', '"'] := by decide

/-- The inner search of `replace_resource` on the text of an outer match
always finds the same key the outer pattern matched. -/
theorem innerKeySearch_span {key : List Char} (h1 : key ≠ []) (h2 : '"' ∉ key) :
    innerKeySearch (resPat ++ key ++ ['"', ']']) = some key := by
  have hassoc : resPat ++ key ++ ['"', ']'] =
      resHead ++ ('[' :: '"' :: (key ++ ['"', ']'])) := by
    rw [resPat_decomp]
    simp
  rw [hassoc, innerKeySearch_skip resHead _ resHead_no_bracket]
  have hm : innerMatchAt ('[' :: '"' :: (key ++ ['"', ']'])) = some key := by
    simp [innerMatchAt, dropWhile_key key [']'] h2, takeWhile_key key [']'] h2, h1]
  exact innerKeySearch_cons_some hm

/-- On the text of an outer match, `replace_resource` renders the call
with the captured key; the fallback branch is not taken. -/
theorem replace_resource_span {key : List Char} (h1 : key ≠ []) (h2 : '"' ∉ key) :
    replace_resource (resPat ++ key ++ ['"', ']']) = renderRes key := by
  unfold replace_resource
  rw [innerKeySearch_span h1 h2]

/-! ### Decomposition of a single-anchor text -/

/-- A text the anchor scan counts exactly one match in splits into a
prefix with no match start, the anchor literal, and a match-free
remainder, and the substitution splices the helper block right after the
anchor. -/
theorem anchor_one_decomp :
    ∀ n s, s.length ≤ n → scanCount anchorStep n s = 1 →
      ∃ pre post, s = pre ++ anchorPat ++ post ∧
        (∀ i, i < pre.length → anchorStep (s.drop i) = none) ∧
        scanCount anchorStep post.length post = 0 ∧
        scanSub anchorStep n s = pre ++ anchorPat ++ helper_method ++ post := by
  intro n
  induction n with
  | zero =>
    intro s hn h1
    have : s = [] := List.length_eq_zero.mp (Nat.le_zero.mp hn)
    subst this
    simp [scanCount] at h1
  | succ n ih =>
    intro s hn h1
    cases s with
    | nil =>
      rw [scanCount_nil] at h1
      exact absurd h1 (by simp)
    | cons c cs =>
      cases h : anchorStep (c :: cs) with
      | some pr =>
        obtain ⟨rep, rest⟩ := pr
        have hp : anchorPat.isPrefixOf (c :: cs) = true := by
          cases hb : anchorPat.isPrefixOf (c :: cs) with
          | true => rfl
          | false =>
            rw [(anchorStep_none_iff (c :: cs)).mpr hb] at h
            exact absurd h (by simp)
        obtain ⟨t, ht⟩ := (isPrefixOf_ex anchorPat (c :: cs)).mp hp
        have hstep : anchorStep (c :: cs) = some (anchorPat ++ helper_method, t) := by
          rw [ht, anchorStep_append]
        rw [hstep] at h
        simp only [Option.some.injEq, Prod.mk.injEq] at h
        rw [scanCount_cons_some n hstep] at h1
        have hz : scanCount anchorStep n t = 0 := by omega
        have htlen : t.length ≤ n := by
          have := anchor_shrinking (c :: cs) _ _ hstep
          simp only [List.length_cons] at this hn
          omega
        refine ⟨[], t, by simpa using ht, by simp, ?_, ?_⟩
        · rw [scanCount_fuel anchor_shrinking t.length n t (Nat.le_refl _) htlen]
          exact hz
        · rw [scanSub_cons_some n hstep,
            scanSub_count_zero n t htlen hz]
          simp [ht]
      | none =>
        rw [scanCount_cons_none n h] at h1
        have hcs : cs.length ≤ n := by
          simp only [List.length_cons] at hn
          omega
        obtain ⟨pre, post, heq, hnost, hz, hsub⟩ := ih cs hcs h1
        refine ⟨c :: pre, post, by simp [heq], ?_, hz, ?_⟩
        · intro i hi
          cases i with
          | zero => simpa using h
          | succ i =>
            have := hnost i (by simpa using hi)
            simpa [heq] using this
        · rw [scanSub_cons_none n h, hsub]
          simp

/-! ### No anchor or resource match can start inside the helper block -/

theorem helper_anchor_free : ∀ i, i < helper_method.length →
    ((helper_method.drop i).isPrefixOf anchorPat = false ∧
     anchorPat.isPrefixOf (helper_method.drop i) = false) := by decide

theorem helper_res_free : ∀ i, i < helper_method.length →
    ((helper_method.drop i).isPrefixOf resPat = false ∧
     resPat.isPrefixOf (helper_method.drop i) = false) := by decide

theorem helper_no_anchor_start (post : List Char) :
    ∀ i, i < helper_method.length →
      anchorStep ((helper_method ++ post).drop i) = none := by
  intro i hi
  rw [drop_app_left helper_method post i (Nat.le_of_lt hi)]
  rw [anchorStep_none_iff]
  exact not_prefixOf_append anchorPat (helper_method.drop i) post
    (helper_anchor_free i hi).1 (helper_anchor_free i hi).2

theorem helper_no_res_start (post : List Char) :
    ∀ i, i < helper_method.length →
      resStep ((helper_method ++ post).drop i) = none := by
  intro i hi
  rw [drop_app_left helper_method post i (Nat.le_of_lt hi)]
  exact resStep_none_of_not_prefixOf
    (not_prefixOf_append resPat (helper_method.drop i) post
      (helper_res_free i hi).1 (helper_res_free i hi).2)

/-! ### Transfer of match-free prefixes and the structured single-match scan -/

theorem append_ne_nil_left {a : List Char} (x : List Char) (h : a ≠ []) :
    a ++ x ≠ [] := by
  cases a with
  | nil => exact absurd rfl h
  | cons c cs => simp

theorem take_anchor_indep (u z : List Char) :
    (u ++ (anchorPat ++ z)).take anchorPat.length =
      (u ++ anchorPat).take anchorPat.length := by
  rw [← List.append_assoc]
  exact take_app_left (u ++ anchorPat) z anchorPat.length
    (by simp [List.length_append])

theorem anchorStep_none_transfer (u post post' : List Char)
    (h : anchorStep (u ++ (anchorPat ++ post)) = none) :
    anchorStep (u ++ (anchorPat ++ post')) = none := by
  cases hb : anchorPat.isPrefixOf (u ++ (anchorPat ++ post')) with
  | false => exact (anchorStep_none_iff _).mpr hb
  | true =>
    exfalso
    have h1 : (u ++ (anchorPat ++ post')).take anchorPat.length = anchorPat :=
      (isPrefixOf_take _ _).mp hb
    rw [take_anchor_indep u post'] at h1
    have h2 : anchorPat.isPrefixOf (u ++ (anchorPat ++ post)) = true := by
      rw [isPrefixOf_take, take_anchor_indep u post]
      exact h1
    rw [(anchorStep_none_iff _).mp h] at h2
    exact Bool.false_ne_true h2

theorem noStart_transfer (pre post post' : List Char)
    (h : ∀ i, i < pre.length →
      anchorStep ((pre ++ (anchorPat ++ post)).drop i) = none) :
    ∀ i, i < pre.length →
      anchorStep ((pre ++ (anchorPat ++ post')).drop i) = none := by
  intro i hi
  have hd : (pre ++ (anchorPat ++ post')).drop i =
      pre.drop i ++ (anchorPat ++ post') :=
    drop_app_left pre (anchorPat ++ post') i (Nat.le_of_lt hi)
  have hd0 : (pre ++ (anchorPat ++ post)).drop i =
      pre.drop i ++ (anchorPat ++ post) :=
    drop_app_left pre (anchorPat ++ post) i (Nat.le_of_lt hi)
  rw [hd]
  refine anchorStep_none_transfer (pre.drop i) post post' ?_
  rw [← hd0]
  exact h i hi

/-- Scanning a text of the shape prefix-anchor-remainder, with no match
starting in the prefix and no match in the remainder, replaces exactly the
anchor occurrence and counts exactly one match. -/
theorem anchorSub_structured (pre post : List Char)
    (hnost : ∀ i, i < pre.length →
      anchorStep ((pre ++ (anchorPat ++ post)).drop i) = none)
    (hz : scanCount anchorStep post.length post = 0) :
    scanSub anchorStep (pre ++ (anchorPat ++ post)).length
        (pre ++ (anchorPat ++ post)) =
      pre ++ (anchorPat ++ (helper_method ++ post)) ∧
    scanCount anchorStep (pre ++ (anchorPat ++ post)).length
        (pre ++ (anchorPat ++ post)) = 1 := by
  have hA1 : 1 ≤ anchorPat.length := by decide
  have hlen : (pre ++ (anchorPat ++ post)).length =
      pre.length + (anchorPat.length + post.length) := by
    simp [List.length_append]
  obtain ⟨m, hm⟩ : ∃ m, (pre ++ (anchorPat ++ post)).length - pre.length = m + 1 :=
    ⟨(pre ++ (anchorPat ++ post)).length - pre.length - 1, by omega⟩
  have hmval : m + 1 = anchorPat.length + post.length := by omega
  have hstepA : anchorStep (anchorPat ++ post) =
      some (anchorPat ++ helper_method, post) := anchorStep_append post
  have hAne : anchorPat ++ post ≠ [] := append_ne_nil_left post anchorPat_ne_nil
  have hAlen : (anchorPat ++ post).length ≤ m + 1 := by
    simp only [List.length_append]
    omega
  have hcz : scanCount anchorStep m post = 0 := by
    rw [scanCount_fuel anchor_shrinking m post.length post (by omega) (Nat.le_refl _)]
    exact hz
  constructor
  · rw [scanSub_append pre (anchorPat ++ post) _ (Nat.le_refl _) hnost, hm,
      scanSub_match m hstepA hAne hAlen,
      scanSub_count_zero m post (by omega) hcz]
    simp [List.append_assoc]
  · rw [scanCount_append pre (anchorPat ++ post) _ (Nat.le_refl _) hnost, hm,
      scanCount_match m hstepA hAne hAlen, hcz]

/-! ### Output length of the anchor substitution -/

theorem anchorStep_some_inv {l rep rest : List Char}
    (h : anchorStep l = some (rep, rest)) :
    rep = anchorPat ++ helper_method ∧ l = anchorPat ++ rest := by
  cases hb : anchorPat.isPrefixOf l with
  | false =>
    rw [(anchorStep_none_iff l).mpr hb] at h
    exact absurd h (by simp)
  | true =>
    obtain ⟨t, rfl⟩ := (isPrefixOf_ex anchorPat l).mp hb
    rw [anchorStep_append] at h
    simp only [Option.some.injEq, Prod.mk.injEq] at h
    refine ⟨h.1.symm, ?_⟩
    rw [h.2]

theorem anchorSub_length_aux :
    ∀ n s, s.length ≤ n →
      (scanSub anchorStep n s).length =
        s.length + scanCount anchorStep n s * helper_method.length := by
  intro n
  induction n with
  | zero =>
    intro s hn
    have : s = [] := List.length_eq_zero.mp (Nat.le_zero.mp hn)
    subst this
    simp [scanSub, scanCount]
  | succ n ih =>
    intro s hn
    cases s with
    | nil =>
      rw [scanSub_nil, scanCount_nil]
      simp
    | cons c cs =>
      cases h : anchorStep (c :: cs) with
      | some pr =>
        obtain ⟨rep, rest⟩ := pr
        obtain ⟨hrep, hsplit⟩ := anchorStep_some_inv h
        subst hrep
        rw [scanSub_cons_some n h, scanCount_cons_some n h]
        have hr : rest.length ≤ n := by
          have := anchor_shrinking _ _ _ h
          simp only [List.length_cons] at hn this
          omega
        have hlen : (c :: cs).length = anchorPat.length + rest.length := by
          rw [hsplit, List.length_append]
        rw [List.length_append, List.length_append, ih rest hr, hlen,
          Nat.add_mul, Nat.one_mul]
        omega
      | none =>
        rw [scanSub_cons_none n h, scanCount_cons_none n h]
        have hcs : cs.length ≤ n := by
          simp only [List.length_cons] at hn
          omega
        simp only [List.length_cons, ih cs hcs]
        omega

theorem anchorSub_length (s : List Char) :
    (anchorSub s).length = s.length + anchorCount s * helper_method.length :=
  anchorSub_length_aux s.length s (Nat.le_refl _)

/-! ### Specification relation for the resource substitution -/

/-- Specification of the rewrite pass: the output is the input with each
matched span, scanned left to right and non-overlapping, replaced by the
rendered GetThemeBrush call for its captured key, every character outside
the matched spans copied unchanged, and the third component counting the
replacements made. -/
inductive SubSpec : List Char → List Char → Nat → Prop
  | nil : SubSpec [] [] 0
  | skip {c : Char} {s t : List Char} {n : Nat} :
      matchRes (c :: s) = none → SubSpec s t n → SubSpec (c :: s) (c :: t) n
  | repl {l key rest t : List Char} {n : Nat} :
      matchRes l = some (key, rest) → SubSpec rest t n →
      SubSpec l (renderRes key ++ t) (n + 1)

theorem resStep_none_iff (l : List Char) : resStep l = none ↔ matchRes l = none := by
  unfold resStep
  cases hm : matchRes l with
  | none => simp
  | some pr =>
    obtain ⟨key, r⟩ := pr
    simp

theorem subSpec_aux :
    ∀ n s, s.length ≤ n →
      SubSpec s (scanSub resStep n s) (scanCount resStep n s) := by
  intro n
  induction n with
  | zero =>
    intro s hn
    have : s = [] := List.length_eq_zero.mp (Nat.le_zero.mp hn)
    subst this
    exact SubSpec.nil
  | succ n ih =>
    intro s hn
    cases s with
    | nil =>
      rw [scanSub_nil, scanCount_nil]
      exact SubSpec.nil
    | cons c cs =>
      cases hm : matchRes (c :: cs) with
      | none =>
        have hstep : resStep (c :: cs) = none := (resStep_none_iff _).mpr hm
        rw [scanSub_cons_none n hstep, scanCount_cons_none n hstep]
        exact SubSpec.skip hm (ih cs (by simp only [List.length_cons] at hn; omega))
      | some pr =>
        obtain ⟨key, rest⟩ := pr
        have hstep : resStep (c :: cs) =
            some (replace_resource (resPat ++ key ++ ['"', ']']), rest) := by
          unfold resStep
          rw [hm]
        obtain ⟨hsplit, hne, hq⟩ := matchRes_some hm
        have hrr : replace_resource (resPat ++ key ++ ['"', ']']) = renderRes key :=
          replace_resource_span hne hq
        rw [scanSub_cons_some n hstep, scanCount_cons_some n hstep, hrr,
          Nat.add_comm 1 (scanCount resStep n rest)]
        have hr : rest.length ≤ n := by
          have := res_shrinking _ _ _ hstep
          simp only [List.length_cons] at hn this
          omega
        exact SubSpec.repl hm (ih rest hr)

/-! ### The resource scan copies the helper block unchanged -/

theorem resourceSub_helper_frame (post : List Char) :
    resourceSub (helper_method ++ post) = helper_method ++ resourceSub post := by
  show scanSub resStep (helper_method ++ post).length (helper_method ++ post) =
    helper_method ++ scanSub resStep post.length post
  rw [scanSub_append helper_method post _ (Nat.le_refl _)
    (fun i hi => helper_no_res_start post i hi)]
  have hx : (helper_method ++ post).length - helper_method.length = post.length := by
    simp [List.length_append]
  rw [hx]

/-! ### Spec-side definition for the escaping comparison -/

/-- Modelled from the spec: the spec demands that embedded quotes and
backslashes in the captured key be escaped before the key is embedded in
the rendered expression.  The source performs no such escaping; this
definition renders the escaping the spec describes, for comparison with
the rendering of the code. -/
def escapeKey : List Char → List Char
  | [] => []
  | c :: cs =>
    if c = '"' ∨ c = '\\' then '\\' :: c :: escapeKey cs
    else c :: escapeKey cs

/-- Modelled from the spec: the rendered replacement with the key escaped
as the spec requires. -/
def renderEscaped (key : List Char) : List Char :=
  "GetThemeBrush(\"".toList ++ escapeKey key ++ "\", Brushes.Gray)".toList

/-! ### Claim theorems -/

/-- C1: for every SourceText with exactly one anchor match, the insertion
stage returns the original text with the helper block spliced immediately
after the end of the matched anchor span, all other characters unchanged,
and the output length is the input length plus the block length. -/
theorem C1_insertion_exactness (s : List Char) (h : anchorCount s = 1) :
    ∃ pre post, s = pre ++ anchorPat ++ post ∧
      anchorSub s = pre ++ anchorPat ++ helper_method ++ post ∧
      (anchorSub s).length = s.length + helper_method.length := by
  obtain ⟨pre, post, heq, -, -, hsub⟩ :=
    anchor_one_decomp s.length s (Nat.le_refl _) h
  have hsub' : anchorSub s = pre ++ anchorPat ++ helper_method ++ post := hsub
  refine ⟨pre, post, heq, hsub', ?_⟩
  rw [hsub', heq]
  simp only [List.length_append]
  omega

/-- Concrete one-anchor input for the witness of C1. -/
def exC1 : List Char := "abc".toList ++ anchorPat ++ "def".toList

/-- Witness for C1 at a concrete one-anchor input. -/
theorem C1_insertion_exactness_witness :
    anchorCount exC1 = 1 ∧
    (∃ pre post, exC1 = pre ++ anchorPat ++ post ∧
      anchorSub exC1 = pre ++ anchorPat ++ helper_method ++ post ∧
      (anchorSub exC1).length = exC1.length + helper_method.length) :=
  ⟨by decide, C1_insertion_exactness exC1 (by decide)⟩

/-- Concrete anchor-free input for C2. -/
def exC2 : List Char := "hello".toList

/-- C2 counterexample: on a SourceText with zero anchor matches the
script does not terminate as a failure without writing; it leaves the
text unchanged and still writes it out, so the written content is not
none but the unchanged input. -/
theorem C2_counterexample :
    anchorCount exC2 = 0 ∧ writtenContent exC2 ≠ none ∧
      writtenContent exC2 = some exC2 :=
  ⟨by decide, by decide, by decide⟩

/-- C2 (amended): for every SourceText with zero anchor matches the
insertion stage leaves the text unchanged, no failure is signalled, and
the pipeline still writes the substitution-stage output. -/
theorem C2_no_anchor_still_writes (s : List Char) (h : anchorCount s = 0) :
    anchorSub s = s ∧ writtenContent s = some (resourceSub s) := by
  have hid : anchorSub s = s := scanSub_count_zero s.length s (Nat.le_refl _) h
  refine ⟨hid, ?_⟩
  simp only [writtenContent, pipeline, hid]

/-- Witness for the amended C2 at a concrete anchor-free input. -/
theorem C2_no_anchor_still_writes_witness :
    anchorCount exC2 = 0 ∧
    (anchorSub exC2 = exC2 ∧ writtenContent exC2 = some (resourceSub exC2)) :=
  ⟨by decide, C2_no_anchor_still_writes exC2 (by decide)⟩

/-- Concrete two-anchor input for C3. -/
def exC3 : List Char := anchorPat ++ ['x'] ++ anchorPat

/-- C3 counterexample: on a SourceText with two anchor matches the script
does not signal AnchorAmbiguous and does not refrain from inserting; it
inserts the block after both matches and still writes. -/
theorem C3_counterexample :
    anchorCount exC3 = 2 ∧
    anchorSub exC3 =
      anchorPat ++ helper_method ++ ['x'] ++ anchorPat ++ helper_method ∧
    writtenContent exC3 ≠ none :=
  ⟨by decide, by decide, by decide⟩

/-- C3 (amended): for every SourceText with two or more anchor matches no
failure is signalled; the insertion stage inserts the block after every
match, so the output grows by the block length times the match count, the
text is changed, and the pipeline still writes. -/
theorem C3_ambiguous_inserts_everywhere (s : List Char) (h : 2 ≤ anchorCount s) :
    (anchorSub s).length = s.length + anchorCount s * helper_method.length ∧
    anchorSub s ≠ s ∧ writtenContent s ≠ none := by
  have hlen := anchorSub_length s
  refine ⟨hlen, ?_, by simp [writtenContent]⟩
  intro he
  rw [he] at hlen
  have hH : 0 < helper_method.length := by decide
  have hpos : 0 < anchorCount s * helper_method.length :=
    Nat.mul_pos (by omega) hH
  omega

/-- Witness for the amended C3 at a concrete two-anchor input. -/
theorem C3_ambiguous_inserts_everywhere_witness :
    2 ≤ anchorCount exC3 ∧
    ((anchorSub exC3).length =
        exC3.length + anchorCount exC3 * helper_method.length ∧
      anchorSub exC3 ≠ exC3 ∧ writtenContent exC3 ≠ none) :=
  ⟨by decide, C3_ambiguous_inserts_everywhere exC3 (by decide)⟩

/-- Key of the C4 counterexample: the pattern prefix without its final
quote, which a quote-free capture group may legally contain. -/
def exC4key : List Char := resHead ++ ['[']

/-- Input of the C4 counterexample: one occurrence of the pattern whose
key is the pattern prefix itself, followed by a stray quote and bracket. -/
def exC4 : List Char := resPat ++ exC4key ++ ['"', ']', '"', ']']

/-- C4 counterexample: a SourceText with exactly one occurrence of the
pattern whose substitution output still contains one raw occurrence of
the pattern, refuting the zero-remaining-occurrences part of the claim. -/
theorem C4_counterexample :
    resCount exC4 = 1 ∧ resCount (resourceSub exC4) = 1 :=
  ⟨by decide, by decide⟩

/-- C4 (amended): for every SourceText the substitution output is the
input with each of the N occurrences found by the left-to-right
non-overlapping scan replaced by its rendered GetThemeBrush call and all
text outside the matched spans unchanged; the output may however still
contain raw occurrences of the pattern formed by a rendered key and the
following text, so zero remaining raw occurrences is not guaranteed. -/
theorem C4_rewrite_structure (s : List Char) :
    SubSpec s (resourceSub s) (resCount s) :=
  subSpec_aux s.length s (Nat.le_refl _)

/-- Key with a backslash for the C5 counterexample. -/
def exC5key : List Char := ['a', '\\', 'b']

/-- Input of the C5 counterexample: one occurrence whose key contains a
backslash. -/
def exC5 : List Char := resPat ++ exC5key ++ ['"', ']']

/-- C5 counterexample: for a key containing a backslash the rendered
replacement embeds the key verbatim and differs from the rendering that
escapes backslashes as the claim demands. -/
theorem C5_counterexample :
    resourceSub exC5 = renderRes exC5key ∧
    resourceSub exC5 ≠ renderEscaped exC5key :=
  ⟨by decide, by decide⟩

/-- C5 (amended): for every occurrence whose capture group extracts key
K, the rendered replacement is the call template containing K copied
verbatim with no escaping, together with the fallback literal
Brushes.Gray; K can never contain a double quote because the capture
class excludes it, and nothing else in the span is altered. -/
theorem C5_key_verbatim (key : List Char) (h1 : key ≠ []) (h2 : '"' ∉ key) :
    replace_resource (resPat ++ key ++ ['"', ']']) = renderRes key :=
  replace_resource_span h1 h2

/-- Witness for the amended C5 at the backslash key. -/
theorem C5_key_verbatim_witness :
    (exC5key ≠ [] ∧ '"' ∉ exC5key) ∧
    replace_resource (resPat ++ exC5key ++ ['"', ']']) = renderRes exC5key :=
  ⟨⟨by decide, by decide⟩, C5_key_verbatim exC5key (by decide) (by decide)⟩

/-- C6: an input containing the literal AccentBrush resource lookup is
rewritten so that the occurrence becomes exactly the GetThemeBrush call
with the AccentBrush key and the Brushes.Gray fallback. -/
theorem C6_example_scenario :
    resourceSub
      ("var b = (SolidColorBrush)Application.Current.Resources[\"AccentBrush\"];".toList) =
      "var b = GetThemeBrush(\"AccentBrush\", Brushes.Gray);".toList := by
  decide

/-- C7: on a SourceText with exactly one anchor match, the once-inserted
text still contains exactly one anchor match, and running the insertion
stage twice duplicates the helper block right after the anchor. -/
theorem C7_insertion_not_idempotent (s : List Char) (h : anchorCount s = 1) :
    ∃ pre post, s = pre ++ anchorPat ++ post ∧
      anchorCount (anchorSub s) = 1 ∧
      anchorSub (anchorSub s) =
        pre ++ anchorPat ++ helper_method ++ helper_method ++ post := by
  obtain ⟨pre, post, heq, hnost, hz, hsub⟩ :=
    anchor_one_decomp s.length s (Nat.le_refl _) h
  have heq' : s = pre ++ (anchorPat ++ post) := by
    rw [heq, List.append_assoc]
  have hnost1 : ∀ i, i < pre.length →
      anchorStep ((pre ++ (anchorPat ++ post)).drop i) = none := by
    intro i hi
    exact heq' ▸ hnost i hi
  have hs1 : anchorSub s = pre ++ (anchorPat ++ (helper_method ++ post)) := by
    have h1 : anchorSub s = pre ++ anchorPat ++ helper_method ++ post := hsub
    rw [h1]
    simp [List.append_assoc]
  have hnost2 := noStart_transfer pre post (helper_method ++ post) hnost1
  have hz2 : scanCount anchorStep (helper_method ++ post).length
      (helper_method ++ post) = 0 := by
    rw [scanCount_append helper_method post _ (Nat.le_refl _)
      (fun i hi => helper_no_anchor_start post i hi)]
    have hx : (helper_method ++ post).length - helper_method.length =
        post.length := by
      simp [List.length_append]
    rw [hx]
    exact hz
  obtain ⟨hsub2, hcnt2⟩ :=
    anchorSub_structured pre (helper_method ++ post) hnost2 hz2
  refine ⟨pre, post, heq, ?_, ?_⟩
  · rw [hs1]
    exact hcnt2
  · rw [hs1]
    have h2 : anchorSub (pre ++ (anchorPat ++ (helper_method ++ post))) =
        pre ++ (anchorPat ++ (helper_method ++ (helper_method ++ post))) := hsub2
    rw [h2]
    simp [List.append_assoc]

/-- Concrete one-anchor input for the witness of C7. -/
def exC7 : List Char := "pq".toList ++ anchorPat ++ "rs".toList

/-- Witness for C7 at a concrete one-anchor input. -/
theorem C7_insertion_not_idempotent_witness :
    anchorCount exC7 = 1 ∧
    (∃ pre post, exC7 = pre ++ anchorPat ++ post ∧
      anchorCount (anchorSub exC7) = 1 ∧
      anchorSub (anchorSub exC7) =
        pre ++ anchorPat ++ helper_method ++ helper_method ++ post) :=
  ⟨by decide, C7_insertion_not_idempotent exC7 (by decide)⟩

/-- C8: no span inside the injected helper block matches the rewrite
pattern, and whenever the substitution scan reaches the block it copies
the block through unchanged and continues after it, for every following
text. -/
theorem C8_block_not_retriggered :
    resCount helper_method = 0 ∧
    ∀ post, resourceSub (helper_method ++ post) =
      helper_method ++ resourceSub post :=
  ⟨by decide, resourceSub_helper_frame⟩

/-- C9: the composition of the insertion stage and the substitution stage
is a pure function of the input text: two runs on equal inputs produce
equal outputs, with no dependence on any external state in the model. -/
theorem C9_pipeline_deterministic (s t : List Char) (h : s = t) :
    pipeline s = pipeline t := by
  rw [h]

/-- Witness for C9 at a concrete input. -/
theorem C9_pipeline_deterministic_witness :
    ("x".toList : List Char) = "x".toList ∧
    pipeline ("x".toList) = pipeline ("x".toList) :=
  ⟨rfl, C9_pipeline_deterministic ("x".toList) ("x".toList) rfl⟩

/-- Concrete matched span input for the witness of C10. -/
def exC10 : List Char := resPat ++ "AccentBrush".toList ++ ['"', ']']

/-- C10: for every string matched by the outer substitution pattern the
captured key is nonempty and quote free, the inner key search of
replace_resource on the matched span succeeds with that same key, and the
fallback branch returning the match unchanged is not taken, so every
rendered replacement carries balanced quotes around the key. -/
theorem C10_inner_search_total (l key rest : List Char)
    (h : matchRes l = some (key, rest)) :
    key ≠ [] ∧ '"' ∉ key ∧
    innerKeySearch (resPat ++ key ++ ['"', ']']) = some key ∧
    replace_resource (resPat ++ key ++ ['"', ']']) = renderRes key := by
  obtain ⟨-, hne, hq⟩ := matchRes_some h
  exact ⟨hne, hq, innerKeySearch_span hne hq, replace_resource_span hne hq⟩

/-- Witness for C10 at the AccentBrush span. -/
theorem C10_inner_search_total_witness :
    matchRes exC10 = some ("AccentBrush".toList, []) ∧
    ("AccentBrush".toList ≠ ([] : List Char) ∧ '"' ∉ "AccentBrush".toList ∧
      innerKeySearch (resPat ++ "AccentBrush".toList ++ ['"', ']']) =
        some ("AccentBrush".toList) ∧
      replace_resource (resPat ++ "AccentBrush".toList ++ ['"', ']']) =
        renderRes ("AccentBrush".toList)) :=
  ⟨by decide, C10_inner_search_total exC10 ("AccentBrush".toList) [] (by decide)⟩
